import Mathlib

/-!
Verification of the thermal-image ingestion pipeline
(`image extraction/thermal images automatic Data uploader.py`).

The Python source is shallowly embedded: strings are lists of characters,
the metadata records produced by the external extractor are structures with
optional fields, external effects (thermal decode success, database query
result, bulk-write success, file locks) are explicit parameters, and the
pipeline functions (`clean_asset_code`, `process_image`, the duplicate
filter loop, the chunked uploader, `get_existing_signatures`,
`get_metadata`, `iter_all_jpgs`, `wait_for_folder_stability`,
`run_pipeline`) are translated function by function.

`datetime.strptime` is modelled as a strict fixed-width match of the two
formats the source tries (`%Y:%m:%d %H:%M:%S` and `%Y-%m-%d %H:%M:%S`,
zero-padded, with calendar validity), matching the spec's "strict parse";
`datetime.strftime("%Y-%m-%d %H:%M:%S")` is modelled as zero-padded
formatting of the parsed fields.
-/

/-- Strings of the Python source are modelled as lists of characters. -/
abbrev Str := List Char

/-- Python `s[:19]`, the truncation used on raw timestamps. -/
def take19 (s : Str) : Str := s.take 19

/-- Python `s.replace(":", "-", k)`: replace the first `k` colons with
hyphens, wherever they occur. -/
def repl : Nat → Str → Str
  | _, [] => []
  | 0, s => s
  | k + 1, c :: cs => if c = ':' then '-' :: repl k cs else c :: repl (k + 1) cs

/-- Decimal value of a digit character (codepoints 48-57), `none` on
anything else. -/
def dval (c : Char) : Option Nat :=
  if 48 ≤ c.toNat ∧ c.toNat ≤ 57 then some (c.toNat - 48) else none

/-- Two-digit field of a timestamp. -/
def val2 (a b : Char) : Option Nat :=
  match dval a, dval b with
  | some x, some y => some (10 * x + y)
  | _, _ => none

/-- Four-digit year field of a timestamp. -/
def val4 (a b c d : Char) : Option Nat :=
  match dval a, dval b, dval c, dval d with
  | some x, some y, some z, some w => some (1000 * x + 100 * y + 10 * z + w)
  | _, _, _, _ => none

/-- Gregorian leap-year test, as validated by Python `datetime`. -/
def isLeap (y : Nat) : Bool := (y % 4 == 0 && y % 100 != 0) || (y % 400 == 0)

/-- Days in a month, as validated by Python `datetime`. -/
def daysInMonth (y m : Nat) : Nat :=
  if m = 2 then (if isLeap y then 29 else 28)
  else if m = 4 ∨ m = 6 ∨ m = 9 ∨ m = 11 then 30
  else 31

/-- The naive wall-clock timestamp held by the `datetime` object built in
`process_image`. -/
structure DT where
  year : Nat
  month : Nat
  day : Nat
  hour : Nat
  minute : Nat
  second : Nat
deriving DecidableEq, Repr

/-- Range validation performed by the `datetime` constructor. -/
def mkDT (y mo dy h mi s : Nat) : Option DT :=
  if 1 ≤ y ∧ 1 ≤ mo ∧ mo ≤ 12 ∧ 1 ≤ dy ∧ dy ≤ daysInMonth y mo ∧
     h ≤ 23 ∧ mi ≤ 59 ∧ s ≤ 59 then
    some ⟨y, mo, dy, h, mi, s⟩
  else none

/-- Numeric fields of a 19-character timestamp, shared by both formats. -/
def parseFields (y1 y2 y3 y4 m1 m2 d1 d2 h1 h2 n1 n2 s1 s2 : Char) : Option DT :=
  match val4 y1 y2 y3 y4, val2 m1 m2, val2 d1 d2,
        val2 h1 h2, val2 n1 n2, val2 s1 s2 with
  | some y, some mo, some dy, some h, some mi, some s => mkDT y mo dy h mi s
  | _, _, _, _, _, _ => none

/-- Model of `datetime.strptime(s, "%Y:%m:%d %H:%M:%S")` (strict,
zero-padded, exactly 19 characters). -/
def parseColon : Str → Option DT
  | [y1, y2, y3, y4, a, m1, m2, b, d1, d2, sp, h1, h2, c, n1, n2, e, s1, s2] =>
    if a = ':' ∧ b = ':' ∧ sp = ' ' ∧ c = ':' ∧ e = ':' then
      parseFields y1 y2 y3 y4 m1 m2 d1 d2 h1 h2 n1 n2 s1 s2
    else none
  | _ => none

/-- Model of `datetime.strptime(s, "%Y-%m-%d %H:%M:%S")` (strict,
zero-padded, exactly 19 characters). -/
def parseHyphen : Str → Option DT
  | [y1, y2, y3, y4, a, m1, m2, b, d1, d2, sp, h1, h2, c, n1, n2, e, s1, s2] =>
    if a = '-' ∧ b = '-' ∧ sp = ' ' ∧ c = ':' ∧ e = ':' then
      parseFields y1 y2 y3 y4 m1 m2 d1 d2 h1 h2 n1 n2 s1 s2
    else none
  | _ => none

/-- Timestamp parsing of `process_image` (lines 230-244): truncate the raw
value to 19 characters, try the colon format, then the hyphen format,
report failure if both fail. -/
def parse_timestamp (raw : Str) : Option DT :=
  match parseColon (take19 raw) with
  | some dt => some dt
  | none => parseHyphen (take19 raw)

/-- Two-digit zero-padded field of `strftime`. -/
def pad2 (n : Nat) : Str := [Nat.digitChar (n / 10 % 10), Nat.digitChar (n % 10)]

/-- Four-digit zero-padded year field of `strftime`. -/
def pad4 (n : Nat) : Str :=
  [Nat.digitChar (n / 1000 % 10), Nat.digitChar (n / 100 % 10),
   Nat.digitChar (n / 10 % 10), Nat.digitChar (n % 10)]

/-- Model of `dt_obj.strftime("%Y-%m-%d %H:%M:%S")`, the stored timestamp
string of a row (line 247) and of a store-seeded signature (line 110). -/
def strftime (t : DT) : Str :=
  pad4 t.year ++ '-' :: pad2 t.month ++ '-' :: pad2 t.day ++
  ' ' :: pad2 t.hour ++ ':' :: pad2 t.minute ++ ':' :: pad2 t.second

/-- The duplicate filter's timestamp normalization (line 409):
`str(raw).replace(":", "-", 2)[:19]`. -/
def sigTs (raw : Str) : Str := take19 (repl 2 raw)

theorem dval_digitChar {c : Char} {n : Nat} (h : dval c = some n) :
    Nat.digitChar n = c := by
  unfold dval at h
  split at h
  case isTrue hc =>
    injection h with h
    have hn : c.toNat = n + 48 := by omega
    have hlt : n < 10 := by omega
    rw [← Char.ofNat_toNat c, hn]
    interval_cases n <;> decide
  case isFalse => simp at h

theorem dval_lt {c : Char} {n : Nat} (h : dval c = some n) : n < 10 := by
  unfold dval at h
  split at h
  case isTrue hc =>
    injection h with h
    omega
  case isFalse => simp at h

theorem dval_ne_colon {c : Char} {n : Nat} (h : dval c = some n) : c ≠ ':' := by
  unfold dval at h
  split at h
  case isTrue hc =>
    intro heq
    subst heq
    exact absurd hc (by decide)
  case isFalse => simp at h

theorem val2_pad2 {a b : Char} {n : Nat} (h : val2 a b = some n) : pad2 n = [a, b] := by
  unfold val2 at h
  split at h
  case h_1 x y ha hb =>
    have hx := dval_lt ha
    have hy := dval_lt hb
    injection h with h
    subst h
    have e1 : (10 * x + y) / 10 % 10 = x := by omega
    have e2 : (10 * x + y) % 10 = y := by omega
    simp [pad2, e1, e2, dval_digitChar ha, dval_digitChar hb]
  case h_2 => simp_all

theorem val4_pad4 {a b c d : Char} {n : Nat} (h : val4 a b c d = some n) :
    pad4 n = [a, b, c, d] := by
  unfold val4 at h
  split at h
  case h_1 x y z w ha hb hc hd =>
    have hx := dval_lt ha
    have hy := dval_lt hb
    have hz := dval_lt hc
    have hw := dval_lt hd
    injection h with h
    subst h
    have e1 : (1000 * x + 100 * y + 10 * z + w) / 1000 % 10 = x := by omega
    have e2 : (1000 * x + 100 * y + 10 * z + w) / 100 % 10 = y := by omega
    have e3 : (1000 * x + 100 * y + 10 * z + w) / 10 % 10 = z := by omega
    have e4 : (1000 * x + 100 * y + 10 * z + w) % 10 = w := by omega
    simp [pad4, e1, e2, e3, e4, dval_digitChar ha, dval_digitChar hb,
      dval_digitChar hc, dval_digitChar hd]
  case h_2 => simp_all

theorem val2_ne_colon {a b : Char} {n : Nat} (h : val2 a b = some n) :
    a ≠ ':' ∧ b ≠ ':' := by
  unfold val2 at h
  split at h
  case h_1 x y ha hb => exact ⟨dval_ne_colon ha, dval_ne_colon hb⟩
  case h_2 => simp_all

theorem val4_ne_colon {a b c d : Char} {n : Nat} (h : val4 a b c d = some n) :
    a ≠ ':' ∧ b ≠ ':' ∧ c ≠ ':' ∧ d ≠ ':' := by
  unfold val4 at h
  split at h
  case h_1 x y z w ha hb hc hd =>
    exact ⟨dval_ne_colon ha, dval_ne_colon hb, dval_ne_colon hc, dval_ne_colon hd⟩
  case h_2 => simp_all

theorem repl_cons_ne {k : Nat} {c : Char} {cs : Str} (h : c ≠ ':') :
    repl (k + 1) (c :: cs) = c :: repl (k + 1) cs := by
  simp [repl, h]

theorem repl_cons_colon {k : Nat} {cs : Str} :
    repl (k + 1) (':' :: cs) = '-' :: repl k cs := by
  simp [repl]

theorem repl_zero (s : Str) : repl 0 s = s := by cases s <;> rfl

theorem take_repl (k n : Nat) (l : Str) : (repl k l).take n = repl k (l.take n) := by
  induction l generalizing k n with
  | nil => simp [repl]
  | cons c cs ih =>
    cases n with
    | zero => simp [repl]
    | succ m =>
      cases k with
      | zero => simp [repl_zero]
      | succ j =>
        by_cases hc : c = ':'
        · subst hc
          simp [repl_cons_colon, ih]
        · simp [repl_cons_ne hc, ih]

/-- On an input accepted by the strict colon format, the duplicate filter's
`replace(":", "-", 2)` normalization reproduces exactly the `strftime`
string of the parsed timestamp. -/
theorem parseColon_repl {l : Str} {dt : DT} (h : parseColon l = some dt) :
    repl 2 l = strftime dt ∧ l.length = 19 := by
  unfold parseColon at h
  split at h
  case h_1 y1 y2 y3 y4 a m1 m2 b d1 d2 sp h1 h2 c n1 n2 e s1 s2 =>
    split at h
    case isTrue hsep =>
      obtain ⟨ha, hb, hsp, hc, he⟩ := hsep
      subst ha; subst hb; subst hsp; subst hc; subst he
      unfold parseFields at h
      split at h
      case h_1 y mo dy hh mi s hy hmo hdy hhh hmi hs =>
        unfold mkDT at h
        split at h
        case isTrue hvalid =>
          injection h with h
          subst h
          obtain ⟨hy1, hy2, hy3, hy4⟩ := val4_ne_colon hy
          obtain ⟨hm1, hm2⟩ := val2_ne_colon hmo
          obtain ⟨hd1, hd2⟩ := val2_ne_colon hdy
          refine ⟨?_, rfl⟩
          rw [repl_cons_ne hy1, repl_cons_ne hy2, repl_cons_ne hy3,
            repl_cons_ne hy4, repl_cons_colon, repl_cons_ne hm1,
            repl_cons_ne hm2, repl_cons_colon, repl_zero]
          simp [strftime, val4_pad4 hy, val2_pad2 hmo, val2_pad2 hdy,
            val2_pad2 hhh, val2_pad2 hmi, val2_pad2 hs]
        case isFalse => simp_all
      case h_2 => simp_all
    case isFalse => simp_all
  case h_2 => simp_all

/-- On an input accepted by the strict hyphen format, the duplicate filter's
normalization replaces the hour and minute separators instead, so it always
disagrees with the `strftime` string of the parsed timestamp. -/
theorem parseHyphen_repl_ne {l : Str} {dt : DT} (h : parseHyphen l = some dt) :
    repl 2 l ≠ strftime dt := by
  unfold parseHyphen at h
  split at h
  case h_1 y1 y2 y3 y4 a m1 m2 b d1 d2 sp h1 h2 c n1 n2 e s1 s2 =>
    split at h
    case isTrue hsep =>
      obtain ⟨ha, hb, hsp, hc, he⟩ := hsep
      subst ha; subst hb; subst hsp; subst hc; subst he
      unfold parseFields at h
      split at h
      case h_1 y mo dy hh mi s hy hmo hdy hhh hmi hs =>
        unfold mkDT at h
        split at h
        case isTrue hvalid =>
          injection h with h
          subst h
          obtain ⟨hy1, hy2, hy3, hy4⟩ := val4_ne_colon hy
          obtain ⟨hm1, hm2⟩ := val2_ne_colon hmo
          obtain ⟨hd1, hd2⟩ := val2_ne_colon hdy
          obtain ⟨hh1, hh2⟩ := val2_ne_colon hhh
          have hdash : ('-' : Char) ≠ ':' := by decide
          have hsp' : (' ' : Char) ≠ ':' := by decide
          rw [repl_cons_ne hy1, repl_cons_ne hy2, repl_cons_ne hy3,
            repl_cons_ne hy4, repl_cons_ne hdash, repl_cons_ne hm1,
            repl_cons_ne hm2, repl_cons_ne hdash, repl_cons_ne hd1,
            repl_cons_ne hd2, repl_cons_ne hsp', repl_cons_ne hh1,
            repl_cons_ne hh2, repl_cons_colon]
          intro heq
          rw [strftime, val4_pad4 hy, val2_pad2 hmo, val2_pad2 hdy,
            val2_pad2 hhh] at heq
          simp [List.cons.injEq] at heq
        case isFalse => simp_all
      case h_2 => simp_all
    case isFalse => simp_all
  case h_2 => simp_all

/-- Core agreement lemma: whenever the raw timestamp's 19-character prefix
parses in the colon format, the filter's signature-timestamp derivation
equals the row builder's stored timestamp. -/
theorem sigTs_eq_strftime {raw : Str} {dt : DT}
    (h : parseColon (take19 raw) = some dt) : sigTs raw = strftime dt := by
  have := parseColon_repl h
  unfold sigTs take19
  rw [take_repl]
  exact this.1

/-- A metadata field value as produced by the external extractor's JSON
output: a number or a string (the camera serial may be either). -/
inductive MVal where
  | num (n : Int)
  | str (s : Str)
deriving DecidableEq, Repr

/-- Decimal digits of a non-negative integer literal, accumulator style. -/
def digitsValAux : Nat → Str → Option Nat
  | acc, [] => some acc
  | acc, c :: cs =>
    match dval c with
    | some d => digitsValAux (10 * acc + d) cs
    | none => none

/-- Python `int(s)` on a string: optional sign followed by digits, `None`
(an exception in the source) on anything else. -/
def pyIntOfStr (s : Str) : Option Int :=
  match s with
  | [] => none
  | '-' :: cs =>
    match cs, digitsValAux 0 cs with
    | _ :: _, some n => some (-(n : Int))
    | _, _ => none
  | cs => (digitsValAux 0 cs).map Int.ofNat

/-- Python `int(v)`: identity on integers, literal parse on strings. -/
def pyToInt : MVal → Option Int
  | .num n => some n
  | .str s => pyIntOfStr s

/-- One file's metadata record (the fields the pipeline reads); each field
is optional, `none` modelling an absent JSON key. -/
structure Meta where
  desc : Option Str
  dto : Option Str
  serial : Option MVal
deriving DecidableEq, Repr

/-- One image file of the watched tree as seen by a pipeline run: its
absolute path, its record in the metadata mapping (`none` when the scan
returned no record, so that `meta_dict.get(path, {})` yields the empty
dict), and whether the external thermal decode (`flyr.unpack`) succeeds. -/
structure SrcFile where
  path : Str
  meta : Option Meta
  decodeOk : Bool
deriving DecidableEq, Repr

/-- Python `meta_dict.get(full_path, {})`: a missing record behaves as a
record with every field absent. -/
def mget : Option Meta → Meta
  | none => ⟨none, none, none⟩
  | some m => m

/-- The signature-relevant part of an uploaded row built by
`process_image` (temperature statistics, weather and the rendered image
are external and carry no identity). -/
structure Row where
  asset : Str
  ts : Str
  serial : Int
deriving DecidableEq, Repr

/-- A deduplication signature: (asset, timestamp string, serial), with
`none` for a missing asset, exactly as the tuple built at line 417. -/
abbrev Sig := Option Str × Str × Int

/-- The signature of an uploaded row. -/
def rowSig (r : Row) : Sig := (some r.asset, r.ts, r.serial)

/-- A row of the ThermalReadings table as read back by
`get_existing_signatures` (Asset_Name, Timestamp, Camera_Serial). -/
structure DbRow where
  asset : Str
  ts : DT
  serial : Int
deriving DecidableEq, Repr

/-- Lines 95-117: seed the working signature set from the Data Store.  The
`try/except` swallows any query failure and returns the empty set, so a
failed query is indistinguishable from an empty table. -/
def get_existing_signatures (res : Except Unit (List DbRow)) : List Sig :=
  match res with
  | .error _ => []
  | .ok rows => rows.map (fun d => (some d.asset, strftime d.ts, d.serial))

/-- Lines 168-175, `clean_asset_code`: uppercase, keep only A-Z and 0-9,
empty result (or falsy input) gives `None`.  A `none` argument models both
`None` and `""`, which the source maps to the same result. -/
def clean_asset_code (raw : Option Str) : Option Str :=
  match raw with
  | none => none
  | some s =>
    let clean := (s.map Char.toUpper).filter
      (fun c => decide (('A' ≤ c ∧ c ≤ 'Z') ∨ ('0' ≤ c ∧ c ≤ '9')))
    if clean = [] then none else some clean

/-- Line 412-414: serial as computed by the duplicate filter —
`int(m_data.get("CameraSerialNumber", 0))` with `except: serial = 0`. -/
def serialD (v : Option MVal) : Int :=
  match pyToInt (v.getD (.num 0)) with
  | some n => n
  | none => 0

/-- Lines 406-417: the signature the duplicate filter computes for a file. -/
def filterSig (f : SrcFile) : Sig :=
  (clean_asset_code (mget f.meta).desc, sigTs ((mget f.meta).dto.getD []),
   serialD (mget f.meta).serial)

/-- Python truthiness of `asset and ts` at lines 420/429: the asset is not
`None` and the timestamp string is nonempty. -/
def okSig (f : SrcFile) : Prop :=
  (filterSig f).1 ≠ none ∧ (filterSig f).2.1 ≠ []

instance (f : SrcFile) : Decidable (okSig f) := by
  unfold okSig; infer_instance

/-- Lines 399-431: the duplicate-filter loop.  Returns the to-process
files, the paths archived as duplicates, and the final working signature
set (Python mutates `existing` in place; here it is threaded). -/
def classify : List SrcFile → List Sig → List SrcFile × List Str × List Sig
  | [], ex => ([], [], ex)
  | f :: rest, ex =>
    if okSig f ∧ filterSig f ∈ ex then
      let r := classify rest ex
      (r.1, f.path :: r.2.1, r.2.2)
    else
      let ex1 := if okSig f then filterSig f :: ex else ex
      let r := classify rest ex1
      (f :: r.1, r.2.1, r.2.2)

/-- Lines 218-286, `process_image`: `None` when the note yields no asset,
when `int(serial)` raises, when both timestamp parses fail, or when the
thermal decode raises; otherwise the row with the stored timestamp
string. -/
def process_image (f : SrcFile) : Option Row :=
  match clean_asset_code (mget f.meta).desc with
  | none => none
  | some a =>
    match pyToInt ((mget f.meta).serial.getD (.num 0)) with
    | none => none
    | some si =>
      match parse_timestamp ((mget f.meta).dto.getD []) with
      | none => none
      | some dt => if f.decodeOk then some ⟨a, strftime dt, si⟩ else none

/-- Lines 462-471: build the rows of one chunk; files whose row could not
be built are archived immediately.  Returns (rows, uploaded paths,
immediately archived paths), in source order. -/
def buildRows : List SrcFile → List Row × List Str × List Str
  | [] => ([], [], [])
  | f :: rest =>
    let r := buildRows rest
    match process_image f with
    | some row => (row :: r.1, f.path :: r.2.1, r.2.2)
    | none => (r.1, r.2.1, f.path :: r.2.2)

/-- Lines 473-489: one chunk — bulk write when at least one row was built
(`w` is the oracle for `to_sql` success), archiving the uploaded paths only
on success.  Returns (paths archived by this chunk, rows uploaded). -/
def processChunk (w : List Row → Bool) (c : List SrcFile) : List Str × List Row :=
  if (buildRows c).1 = [] then ((buildRows c).2.2, [])
  else if w (buildRows c).1 then ((buildRows c).2.2 ++ (buildRows c).2.1, (buildRows c).1)
  else ((buildRows c).2.2, [])

/-- Fuel-driven worker for `chunksOf`; the fuel (an upper bound on the list
length) makes the recursion structural. -/
def chunksOfF (n : Nat) : Nat → List α → List (List α)
  | _, [] => []
  | 0, l => [l]
  | fuel + 1, x :: xs => (x :: xs.take (n - 1)) :: chunksOfF n fuel (xs.drop (n - 1))

/-- Line 457: `range(0, len(files), BATCH_SIZE)` slicing into chunks of at
most `n` (the source uses `BATCH_SIZE = 50`). -/
def chunksOf (n : Nat) (l : List α) : List (List α) := chunksOfF n l.length l

theorem chunksOfF_congr (n : Nat) :
    ∀ (f1 f2 : Nat) (l : List α), l.length ≤ f1 → l.length ≤ f2 →
      chunksOfF n f1 l = chunksOfF n f2 l := by
  intro f1
  induction f1 with
  | zero =>
    intro f2 l h1 _
    have : l = [] := List.length_eq_zero.mp (Nat.le_zero.mp h1)
    subst this
    cases f2 <;> rfl
  | succ a ih =>
    intro f2 l h1 h2
    cases l with
    | nil => cases f2 <;> rfl
    | cons x xs =>
      cases f2 with
      | zero => simp at h2
      | succ b =>
        simp only [List.length_cons] at h1 h2
        simp only [chunksOfF]
        congr 1
        apply ih
        · simp only [List.length_drop]
          omega
        · simp only [List.length_drop]
          omega

/-- The natural unfolding of `chunksOf` on a nonempty list. -/
theorem chunksOf_cons (n : Nat) (x : α) (xs : List α) :
    chunksOf n (x :: xs) =
      (x :: xs.take (n - 1)) :: chunksOf n (xs.drop (n - 1)) := by
  unfold chunksOf
  simp only [List.length_cons, chunksOfF]
  congr 1
  apply chunksOfF_congr
  · simp [List.length_drop]
  · simp [List.length_drop]

/-- Lines 457-489: process every chunk in order; a failed chunk write does
not stop later chunks. -/
def runChunks (w : List Row → Bool) : List (List SrcFile) → List Str × List Row
  | [] => ([], [])
  | c :: cs =>
    let a := processChunk w c
    let b := runChunks w cs
    (a.1 ++ b.1, a.2 ++ b.2)

theorem classify_tp_sublist : ∀ (files : List SrcFile) (ex : List Sig),
    (classify files ex).1.Sublist files := by
  intro files
  induction files with
  | nil => intro ex; simp [classify]
  | cons f rest ih =>
    intro ex
    simp only [classify]
    split
    · exact (ih ex).trans (List.sublist_cons_self f rest)
    · exact (ih _).cons₂ f

/-- A file failing the Python truthiness test `asset and ts` is always
routed to the to-process list, never archived as a duplicate. -/
theorem classify_mem_tp_of_not_ok {f : SrcFile} :
    ∀ (files : List SrcFile) (ex : List Sig), f ∈ files → ¬ okSig f →
      f ∈ (classify files ex).1 := by
  intro files
  induction files with
  | nil => intro ex h; simp at h
  | cons g rest ih =>
    intro ex hmem hnok
    rcases List.mem_cons.mp hmem with hfg | hf
    · subst hfg
      simp only [classify]
      rw [if_neg (by tauto)]
      exact List.mem_cons_self f _
    · simp only [classify]
      split
      · exact ih ex hf hnok
      · exact List.mem_cons_of_mem _ (ih _ hf hnok)

/-- Working-set growth: every signature of the final working set either was
seeded or is the filter signature of a file that passed the truthiness
test. -/
theorem classify_finalSet_charact :
    ∀ (files : List SrcFile) (ex : List Sig) (s : Sig),
      s ∈ (classify files ex).2.2 →
      s ∈ ex ∨ ∃ g ∈ files, okSig g ∧ s = filterSig g := by
  intro files
  induction files with
  | nil => intro ex s h; simp [classify] at h; exact Or.inl h
  | cons f rest ih =>
    intro ex s h
    simp only [classify] at h
    split at h
    · rcases ih ex s h with h' | ⟨g, hg, hok, hs⟩
      · exact Or.inl h'
      · exact Or.inr ⟨g, List.mem_cons_of_mem _ hg, hok, hs⟩
    · rcases ih _ s h with h' | ⟨g, hg, hok, hs⟩
      · by_cases hok : okSig f
        · rw [if_pos hok] at h'
          rcases List.mem_cons.mp h' with h'' | h''
          · exact Or.inr ⟨f, List.mem_cons_self f _, hok, h''⟩
          · exact Or.inl h''
        · rw [if_neg hok] at h'
          exact Or.inl h'
      · exact Or.inr ⟨g, List.mem_cons_of_mem _ hg, hok, hs⟩

/-- The duplicate filter's guarantee, at the level of filter signatures:
every to-process file passing the truthiness test has a signature outside
the incoming working set, and no two of them share a signature. -/
theorem classify_inv :
    ∀ (files : List SrcFile) (ex : List Sig),
      (∀ f ∈ (classify files ex).1, okSig f → filterSig f ∉ ex) ∧
      (classify files ex).1.Pairwise
        (fun f g => okSig f → okSig g → filterSig f ≠ filterSig g) := by
  intro files
  induction files with
  | nil => intro ex; simp [classify]
  | cons f rest ih =>
    intro ex
    simp only [classify]
    split
    case isTrue hdup => exact ih ex
    case isFalse hndup =>
      by_cases hok : okSig f
      · rw [if_pos hok]
        have hne : filterSig f ∉ ex := fun hmem => hndup ⟨hok, hmem⟩
        obtain ⟨hnotin, hpw⟩ := ih (filterSig f :: ex)
        constructor
        · intro g hg hokg
          rcases List.mem_cons.mp hg with hgf | hgr
          · subst hgf; exact hne
          · intro hgex
            exact hnotin g hgr hokg (List.mem_cons_of_mem _ hgex)
        · rw [List.pairwise_cons]
          refine ⟨?_, hpw⟩
          intro g hg _ hokg heq
          exact hnotin g hg hokg (heq ▸ List.mem_cons_self _ _)
      · rw [if_neg hok]
        obtain ⟨hnotin, hpw⟩ := ih ex
        constructor
        · intro g hg hokg
          rcases List.mem_cons.mp hg with hgf | hgr
          · subst hgf; exact absurd hokg hok
          · exact hnotin g hgr hokg
        · rw [List.pairwise_cons]
          refine ⟨?_, hpw⟩
          intro g _ hokf
          exact absurd hokf hok

theorem buildRows_rows : ∀ (c : List SrcFile),
    (buildRows c).1 = c.filterMap process_image := by
  intro c
  induction c with
  | nil => rfl
  | cons f rest ih =>
    simp only [buildRows, List.filterMap_cons]
    cases h : process_image f <;> simp [h, ih]

theorem buildRows_ups : ∀ (c : List SrcFile),
    (buildRows c).2.1 =
      (c.filter (fun f => (process_image f).isSome)).map (fun f => f.path) := by
  intro c
  induction c with
  | nil => rfl
  | cons f rest ih =>
    simp only [buildRows, List.filter_cons]
    cases h : process_image f <;> simp [h, ih]

theorem buildRows_arch : ∀ (c : List SrcFile),
    (buildRows c).2.2 =
      (c.filter (fun f => (process_image f).isNone)).map (fun f => f.path) := by
  intro c
  induction c with
  | nil => rfl
  | cons f rest ih =>
    simp only [buildRows, List.filter_cons]
    cases h : process_image f <;> simp [h, ih]

theorem processChunk_arch_subset {w : List Row → Bool} {c : List SrcFile} {x : Str}
    (h : x ∈ (processChunk w c).1) : x ∈ c.map (fun f => f.path) := by
  unfold processChunk at h
  have harch : (buildRows c).2.2 ⊆ c.map (fun f => f.path) := by
    rw [buildRows_arch]
    intro y hy
    rcases List.mem_map.mp hy with ⟨g, hg, hgy⟩
    exact List.mem_map.mpr ⟨g, (List.mem_filter.mp hg).1, hgy⟩
  have hups : (buildRows c).2.1 ⊆ c.map (fun f => f.path) := by
    rw [buildRows_ups]
    intro y hy
    rcases List.mem_map.mp hy with ⟨g, hg, hgy⟩
    exact List.mem_map.mpr ⟨g, (List.mem_filter.mp hg).1, hgy⟩
  split at h
  · exact harch h
  · split at h
    · rcases List.mem_append.mp h with h' | h'
      · exact harch h'
      · exact hups h'
    · exact harch h

theorem mem_chunksOf {n : Nat} :
    ∀ (l : List α) (f : α), f ∈ l → ∃ c ∈ chunksOf n l, f ∈ c
  | [], f, h => by simp at h
  | x :: xs, f, h => by
    rw [chunksOf_cons]
    rcases List.mem_cons.mp h with hfx | hf
    · exact ⟨x :: xs.take (n - 1), List.mem_cons_self _ _, hfx ▸ List.mem_cons_self _ _⟩
    · rcases List.mem_append.mp ((List.take_append_drop (n - 1) xs) ▸ hf) with h' | h'
      · exact ⟨x :: xs.take (n - 1), List.mem_cons_self _ _, List.mem_cons_of_mem _ h'⟩
      · obtain ⟨c, hc, hfc⟩ := mem_chunksOf (xs.drop (n - 1)) f h'
        exact ⟨c, List.mem_cons_of_mem _ hc, hfc⟩
termination_by l => l.length
decreasing_by simp only [List.length_drop, List.length_cons]; omega

theorem mem_of_mem_chunksOf {n : Nat} :
    ∀ (l : List α) (c : List α) (f : α), c ∈ chunksOf n l → f ∈ c → f ∈ l
  | [], c, f, hc, _ => by simp [chunksOf, chunksOfF] at hc
  | x :: xs, c, f, hc, hf => by
    rw [chunksOf_cons] at hc
    rcases List.mem_cons.mp hc with hc1 | hcr
    · subst hc1
      rcases List.mem_cons.mp hf with hfx | hft
      · exact hfx ▸ List.mem_cons_self _ _
      · exact List.mem_cons_of_mem _ ((List.take_sublist _ _).subset hft)
    · have := mem_of_mem_chunksOf (xs.drop (n - 1)) c f hcr hf
      exact List.mem_cons_of_mem _ ((List.drop_sublist _ _).subset this)
termination_by l => l.length
decreasing_by simp only [List.length_drop, List.length_cons]; omega

theorem runChunks_cons (w : List Row → Bool) (c : List SrcFile)
    (cs : List (List SrcFile)) :
    runChunks w (c :: cs) =
      ((processChunk w c).1 ++ (runChunks w cs).1,
       (processChunk w c).2 ++ (runChunks w cs).2) := rfl

theorem runChunks_arch_subset {w : List Row → Bool} :
    ∀ (cs : List (List SrcFile)) (x : Str), x ∈ (runChunks w cs).1 →
      ∃ c ∈ cs, x ∈ c.map (fun f => f.path) := by
  intro cs
  induction cs with
  | nil => intro x h; simp [runChunks] at h
  | cons c rest ih =>
    intro x h
    rw [runChunks_cons] at h
    rcases List.mem_append.mp h with h' | h'
    · exact ⟨c, List.mem_cons_self _ _, processChunk_arch_subset h'⟩
    · obtain ⟨c', hc', hx⟩ := ih x h'
      exact ⟨c', List.mem_cons_of_mem _ hc', hx⟩

theorem processChunk_arch_of_none {w : List Row → Bool} {c : List SrcFile}
    {f : SrcFile} (hf : f ∈ c) (hnone : process_image f = none) :
    f.path ∈ (processChunk w c).1 := by
  have harch : f.path ∈ (buildRows c).2.2 := by
    rw [buildRows_arch]
    exact List.mem_map.mpr ⟨f, List.mem_filter.mpr ⟨hf, by simp [hnone]⟩, rfl⟩
  unfold processChunk
  split
  · exact harch
  · split
    · exact List.mem_append.mpr (Or.inl harch)
    · exact harch

theorem runChunks_arch_of_mem {w : List Row → Bool} :
    ∀ (cs : List (List SrcFile)) (c : List SrcFile) (x : Str),
      c ∈ cs → x ∈ (processChunk w c).1 → x ∈ (runChunks w cs).1 := by
  intro cs
  induction cs with
  | nil => intro c x hc _; simp at hc
  | cons c0 rest ih =>
    intro c x hc hx
    rw [runChunks_cons]
    rcases List.mem_cons.mp hc with h1 | h1
    · exact List.mem_append.mpr (Or.inl (h1 ▸ hx))
    · exact List.mem_append.mpr (Or.inr (ih c x h1 hx))

theorem runChunks_up_of_mem {w : List Row → Bool} :
    ∀ (cs : List (List SrcFile)) (c : List SrcFile) (r : Row),
      c ∈ cs → r ∈ (processChunk w c).2 → r ∈ (runChunks w cs).2 := by
  intro cs
  induction cs with
  | nil => intro c r hc _; simp at hc
  | cons c0 rest ih =>
    intro c r hc hr
    rw [runChunks_cons]
    rcases List.mem_cons.mp hc with h1 | h1
    · exact List.mem_append.mpr (Or.inl (h1 ▸ hr))
    · exact List.mem_append.mpr (Or.inr (ih c r h1 hr))

/-- Uploaded rows are a sublist of the rows built from the to-process list
(a failed chunk write only removes rows, never adds or reorders). -/
theorem runChunks_up_sublist {w : List Row → Bool} {n : Nat} :
    ∀ (l : List SrcFile),
      (runChunks w (chunksOf n l)).2.Sublist (l.filterMap process_image)
  | [] => by simp [chunksOf, chunksOfF, runChunks]
  | x :: xs => by
    rw [chunksOf_cons, runChunks_cons]
    have h1 : (processChunk w (x :: xs.take (n - 1))).2.Sublist
        ((x :: xs.take (n - 1)).filterMap process_image) := by
      unfold processChunk
      split
      · simp
      · split
        · rw [buildRows_rows]
        · simp
    have h2 := runChunks_up_sublist (w := w) (n := n) (xs.drop (n - 1))
    have hsplit : (x :: xs).filterMap process_image =
        (x :: xs.take (n - 1)).filterMap process_image ++
        (xs.drop (n - 1)).filterMap process_image := by
      rw [← List.filterMap_append]
      congr 1
      simp [List.take_append_drop]
    rw [hsplit]
    exact h1.append h2
termination_by l => l.length
decreasing_by simp only [List.length_drop, List.length_cons]; omega

/-- The observable outcome of one `run_pipeline` call.  `ran` is false when
the run returned before reaching the duplicate filter (no readable images,
or no timestamps). -/
structure RunResult where
  ran : Bool
  toProcess : List SrcFile
  dupArchived : List Str
  chunkArchived : List Str
  uploaded : List Row
  finalSet : List Sig
deriving DecidableEq, Repr

/-- Lines 367-492, `run_pipeline`: metadata scan (merged into the per-file
`meta` fields), early exits, signature seeding, duplicate filter, chunked
upload.  `qres` is the Data Store query outcome and `w` the per-chunk bulk
write outcome. -/
def run_pipeline (files : List SrcFile) (qres : Except Unit (List DbRow))
    (w : List Row → Bool) : RunResult :=
  if files.filterMap (fun f => f.meta) = [] then ⟨false, [], [], [], [], []⟩
  else if (files.filterMap (fun f => f.meta)).filterMap (fun m => m.dto) = [] then
    ⟨false, [], [], [], [], []⟩
  else if (classify files (get_existing_signatures qres)).1 = [] then
    ⟨true, [], (classify files (get_existing_signatures qres)).2.1, [], [],
      (classify files (get_existing_signatures qres)).2.2⟩
  else
    ⟨true, (classify files (get_existing_signatures qres)).1,
      (classify files (get_existing_signatures qres)).2.1,
      (runChunks w (chunksOf 50 (classify files (get_existing_signatures qres)).1)).1,
      (runChunks w (chunksOf 50 (classify files (get_existing_signatures qres)).1)).2,
      (classify files (get_existing_signatures qres)).2.2⟩

theorem strftime_ne_nil (t : DT) : strftime t ≠ [] := by
  simp [strftime, pad4]

/-- Every store-seeded signature carries a `strftime`-formatted, hence
nonempty, timestamp string. -/
theorem get_existing_signatures_ts_ne {res : Except Unit (List DbRow)} {s : Sig}
    (h : s ∈ get_existing_signatures res) : s.2.1 ≠ [] := by
  unfold get_existing_signatures at h
  match res with
  | .error _ => simp at h
  | .ok rows =>
    rcases List.mem_map.mp h with ⟨d, _, hd⟩
    rw [← hd]
    exact strftime_ne_nil d.ts

/-- Bridge between the row builder and the duplicate filter: when a row is
built and its raw timestamp parsed in the colon format, the uploaded row's
signature coincides with the filter's signature of the file, and the file
passes the truthiness test. -/
theorem process_image_sig {f : SrcFile} {r : Row}
    (hr : process_image f = some r)
    (hcol : ∀ dt, parse_timestamp ((mget f.meta).dto.getD []) = some dt →
      parseColon (take19 ((mget f.meta).dto.getD [])) = some dt) :
    rowSig r = filterSig f ∧ okSig f := by
  unfold process_image at hr
  split at hr
  case h_1 => simp at hr
  case h_2 a ha =>
    split at hr
    case h_1 => simp at hr
    case h_2 si hsi =>
      split at hr
      case h_1 => simp at hr
      case h_2 dt hdt =>
        split at hr
        case isTrue =>
          injection hr with hr
          subst hr
          have hts : sigTs ((mget f.meta).dto.getD []) = strftime dt :=
            sigTs_eq_strftime (hcol dt hdt)
          have hsig : filterSig f = (some a, strftime dt, si) := by
            unfold filterSig serialD
            rw [ha, hts, hsi]
          refine ⟨by simp [rowSig, hsig], ?_⟩
          unfold okSig
          rw [hsig]
          exact ⟨by simp, by simpa using strftime_ne_nil dt⟩
        case isFalse => simp at hr

theorem pairwise_filterMap (g : α → Option β) {R : β → β → Prop} :
    ∀ l : List α,
      l.Pairwise (fun a b => ∀ x y, g a = some x → g b = some y → R x y) →
      (l.filterMap g).Pairwise R := by
  intro l
  induction l with
  | nil => intro _; simp
  | cons a rest ih =>
    intro h
    rw [List.pairwise_cons] at h
    rw [List.filterMap_cons]
    cases hga : g a with
    | none => exact ih h.2
    | some x =>
      rw [List.pairwise_cons]
      refine ⟨?_, ih h.2⟩
      intro y hy
      rcases List.mem_filterMap.mp hy with ⟨b, hb, hgb⟩
      exact h.1 b hb x y hga hgb

theorem chunksOf_sublist {n : Nat} :
    ∀ (l : List α) (c : List α), c ∈ chunksOf n l → c.Sublist l
  | [], c, hc => by simp [chunksOf, chunksOfF] at hc
  | x :: xs, c, hc => by
    rw [chunksOf_cons] at hc
    rcases List.mem_cons.mp hc with h1 | h1
    · subst h1
      exact (List.take_sublist _ _).cons₂ x
    · exact ((chunksOf_sublist (xs.drop (n - 1)) c h1).trans
        (List.drop_sublist _ _)).trans (List.sublist_cons_self x xs)
termination_by l => l.length
decreasing_by simp only [List.length_drop, List.length_cons]; omega

/-- Within one chunk (with distinct paths), a file whose row was built is
archived by the chunk exactly when the chunk's bulk write succeeded. -/
theorem processChunk_arch_iff {w : List Row → Bool} {c : List SrcFile}
    {f : SrcFile} {r : Row} (hf : f ∈ c) (hr : process_image f = some r)
    (hnd : (c.map (fun g => g.path)).Nodup) :
    f.path ∈ (processChunk w c).1 ↔ w (buildRows c).1 = true := by
  have hinj := List.inj_on_of_nodup_map hnd
  have hnarch : f.path ∉ (buildRows c).2.2 := by
    rw [buildRows_arch]
    intro hmem
    rcases List.mem_map.mp hmem with ⟨g, hg, hgp⟩
    rcases List.mem_filter.mp hg with ⟨hgc, hgn⟩
    have : g = f := hinj hgc hf hgp
    subst this
    simp [hr] at hgn
  have hups : f.path ∈ (buildRows c).2.1 := by
    rw [buildRows_ups]
    exact List.mem_map.mpr ⟨f, List.mem_filter.mpr ⟨hf, by simp [hr]⟩, rfl⟩
  have hrows : (buildRows c).1 ≠ [] := by
    rw [buildRows_rows]
    intro hnil
    have : r ∈ c.filterMap process_image := List.mem_filterMap.mpr ⟨f, hf, hr⟩
    rw [hnil] at this
    simp at this
  unfold processChunk
  rw [if_neg hrows]
  by_cases hw : w (buildRows c).1 = true
  · rw [if_pos hw]
    simp only [List.mem_append]
    exact ⟨fun _ => hw, fun _ => Or.inr hups⟩
  · rw [if_neg hw]
    constructor
    · intro hmem
      exact absurd hmem hnarch
    · intro hw'
      exact absurd hw' hw

/-- Across the whole chunked pass (distinct paths), membership of a file's
path in the archived set is decided by its own chunk alone. -/
theorem runChunks_arch_mem_iff {w : List Row → Bool} {n : Nat} :
    ∀ (l : List SrcFile) (c : List SrcFile) (f : SrcFile),
      (l.map (fun g => g.path)).Nodup → c ∈ chunksOf n l → f ∈ c →
      (f.path ∈ (runChunks w (chunksOf n l)).1 ↔
        f.path ∈ (processChunk w c).1)
  | [], c, f, _, hc, _ => by simp [chunksOf, chunksOfF] at hc
  | x :: xs, c, f, hnd, hc, hf => by
    rw [chunksOf_cons] at hc ⊢
    rw [runChunks_cons]
    have hsplit : ((x :: xs).map (fun g => g.path)) =
        ((x :: xs.take (n - 1)).map (fun g => g.path)) ++
        ((xs.drop (n - 1)).map (fun g => g.path)) := by
      simp [← List.map_append, List.take_append_drop]
    rw [hsplit] at hnd
    have hdisj := (List.nodup_append.mp hnd).2.2
    rcases List.mem_cons.mp hc with h1 | h1
    · subst h1
      simp only [List.mem_append]
      constructor
      · intro h
        rcases h with h | h
        · exact h
        · exfalso
          rcases runChunks_arch_subset _ _ h with ⟨c', hc', hx⟩
          rcases List.mem_map.mp hx with ⟨g, hgc, hgp⟩
          have hgxs : g ∈ xs.drop (n - 1) := mem_of_mem_chunksOf _ c' g hc' hgc
          have hfl : f.path ∈ (x :: xs.take (n - 1)).map (fun g => g.path) :=
            List.mem_map.mpr ⟨f, hf, rfl⟩
          exact hdisj hfl (hgp ▸ List.mem_map.mpr ⟨g, hgxs, rfl⟩)
      · exact Or.inl
    · have hnd2 : ((xs.drop (n - 1)).map (fun g => g.path)).Nodup :=
        (List.nodup_append.mp hnd).2.1
      have ih := runChunks_arch_mem_iff (w := w) (n := n)
        (xs.drop (n - 1)) c f hnd2 h1 hf
      simp only [List.mem_append]
      constructor
      · intro h
        rcases h with h | h
        · exfalso
          have hx := processChunk_arch_subset h
          have hfdrop : f ∈ xs.drop (n - 1) :=
            mem_of_mem_chunksOf _ c f h1 hf
          exact hdisj hx (List.mem_map.mpr ⟨f, hfdrop, rfl⟩)
        · exact ih.mp h
      · intro h
        exact Or.inr (ih.mpr h)
termination_by l => l.length
decreasing_by simp only [List.length_drop, List.length_cons]; omega

/-- Python `s.startswith(p)` on absolute paths (paths are modelled already
absolute, as the source normalizes with `os.path.abspath`). -/
def pstarts : Str → Str → Bool
  | [], _ => true
  | _ :: _, [] => false
  | a :: as, b :: bs => a = b && pstarts as bs

/-- Python `s.endswith(t)`. -/
def pends (suf s : Str) : Bool := pstarts suf.reverse s.reverse

/-- Python `fname.lower().endswith(".jpg")`. -/
def isJpgName (s : Str) : Bool := pends ['.', 'j', 'p', 'g'] (s.map Char.toLower)

/-- `os.path.join` for an absolute directory and a slash-free filename. -/
def pjoin (d f : Str) : Str := d ++ '/' :: f

/-- One record of the external extractor's JSON output: the source file
path plus the metadata fields. -/
structure MetaRec where
  src : Str
  fields : Meta
deriving DecidableEq, Repr

/-- Lines 120-165, `get_metadata`: the extractor output (or its failure,
which the `try/except` turns into an empty list) filtered to drop every
record whose source path lies under the archive folder. -/
def get_metadata (arch : Str) (res : Except Unit (List MetaRec)) : List MetaRec :=
  match res with
  | .error _ => []
  | .ok l => l.filter (fun m => !(pstarts arch m.src))

/-- Inner loop of `iter_all_jpgs` over one directory's filenames. -/
def iterDir (d : Str) : List Str → List Str
  | [] => []
  | f :: fs => if isJpgName f then pjoin d f :: iterDir d fs else iterDir d fs

/-- Lines 305-314, `iter_all_jpgs`: walk the tree (modelled as the list of
`(dirpath, filenames)` pairs produced by `os.walk`), skipping any directory
whose path starts with the archive path, yielding the joined paths of the
`.jpg` files. -/
def iter_all_jpgs (arch : Str) : List (Str × List Str) → List Str
  | [] => []
  | (d, fns) :: rest =>
    if pstarts arch d then iter_all_jpgs arch rest
    else iterDir d fns ++ iter_all_jpgs arch rest

theorem pstarts_append : ∀ (p t : Str), pstarts p (p ++ t) = true := by
  intro p
  induction p with
  | nil => intro t; rfl
  | cons a as ih => intro t; simp [pstarts, ih]

theorem iterDir_eq (d : Str) : ∀ (fns : List Str),
    iterDir d fns = (fns.filter isJpgName).map (pjoin d) := by
  intro fns
  induction fns with
  | nil => rfl
  | cons f fs ih =>
    simp only [iterDir, List.filter_cons]
    cases h : isJpgName f <;> simp [h, ih]

theorem mem_iter_all_jpgs {arch : Str} :
    ∀ (walk : List (Str × List Str)) (p : Str), p ∈ iter_all_jpgs arch walk →
      ∃ e ∈ walk, ∃ f ∈ e.2, pstarts arch e.1 = false ∧ isJpgName f = true ∧
        p = pjoin e.1 f := by
  intro walk
  induction walk with
  | nil => intro p h; simp [iter_all_jpgs] at h
  | cons e rest ih =>
    intro p h
    match e with
    | (d, fns) =>
      simp only [iter_all_jpgs] at h
      split at h
      case isTrue =>
        obtain ⟨e', he', hrest⟩ := ih p h
        exact ⟨e', List.mem_cons_of_mem _ he', hrest⟩
      case isFalse hd =>
        rcases List.mem_append.mp h with h' | h'
        · rw [iterDir_eq] at h'
          rcases List.mem_map.mp h' with ⟨f, hf, hpf⟩
          rcases List.mem_filter.mp hf with ⟨hffns, hfjpg⟩
          exact ⟨(d, fns), List.mem_cons_self _ _, f, hffns,
            Bool.not_eq_true _ ▸ Bool.of_not_eq_true hd, hfjpg, hpf.symm⟩
        · obtain ⟨e', he', hrest⟩ := ih p h'
          exact ⟨e', List.mem_cons_of_mem _ he', hrest⟩

/-- One file of the watched tree as seen by the stability gate: name,
modification time, and its lock state as a function of the probe time
(both external to the pipeline). -/
structure StabFile where
  name : Str
  mtime : Nat
  lockedAt : Nat → Bool

/-- Lines 324-337, inner loop: skip non-jpg names, skip files modified more
than 60 seconds ago, lock-probe the rest.  Returns (probed paths, locked
paths), in walk order. -/
def scanDir (now : Nat) (d : Str) : List StabFile → List Str × List Str
  | [] => ([], [])
  | f :: fs =>
    if !(isJpgName f.name) then scanDir now d fs
    else if now - f.mtime > 60 then scanDir now d fs
    else if f.lockedAt now then
      (pjoin d f.name :: (scanDir now d fs).1, pjoin d f.name :: (scanDir now d fs).2)
    else (pjoin d f.name :: (scanDir now d fs).1, (scanDir now d fs).2)

/-- Lines 323-337, one polling scan over the walked tree, skipping archive
directories. -/
def scanWalk (arch : Str) (now : Nat) : List (Str × List StabFile) → List Str × List Str
  | [] => ([], [])
  | (d, fs) :: rest =>
    if pstarts arch d then scanWalk arch now rest
    else ((scanDir now d fs).1 ++ (scanWalk arch now rest).1,
          (scanDir now d fs).2 ++ (scanWalk arch now rest).2)

/-- Lines 322-345, the polling loop: at most `timeout` scans one second
apart (`time.sleep(1)`), returning true as soon as a scan finds no locked
recent file and false when the timeout elapses. -/
def waitAux (arch : Str) (walk : List (Str × List StabFile)) : Nat → Nat → Bool
  | _, 0 => false
  | now, r + 1 =>
    if (scanWalk arch now walk).2 = [] then true
    else waitAux arch walk (now + 1) r

/-- Lines 317-345, `wait_for_folder_stability` (default `timeout=15`). -/
def wait_for_folder_stability (arch : Str) (walk : List (Str × List StabFile))
    (start timeout : Nat) : Bool :=
  waitAux arch walk start timeout

/-- Lines 569-577, one iteration of the main loop after a trigger: run the
pipeline only if the tree is stable, otherwise skip the run entirely. -/
def mainIteration (arch : Str) (walk : List (Str × List StabFile))
    (start timeout : Nat) (files : List SrcFile)
    (qres : Except Unit (List DbRow)) (w : List Row → Bool) : RunResult :=
  if wait_for_folder_stability arch walk start timeout then
    run_pipeline files qres w
  else ⟨false, [], [], [], [], []⟩

/-- The set of lock-probed paths of one directory scan: exactly the jpg
files modified within the last 60 seconds. -/
theorem scanDir_probed (now : Nat) (d : Str) : ∀ (fs : List StabFile),
    (scanDir now d fs).1 =
      (fs.filter (fun f => isJpgName f.name && decide (now - f.mtime ≤ 60))).map
        (fun f => pjoin d f.name) := by
  intro fs
  induction fs with
  | nil => rfl
  | cons f rest ih =>
    simp only [scanDir, List.filter_cons]
    by_cases h1 : isJpgName f.name
    · by_cases h2 : now - f.mtime > 60
      · have : ¬ (now - f.mtime ≤ 60) := by omega
        simp [h1, h2, this, ih]
      · have : now - f.mtime ≤ 60 := by omega
        by_cases h3 : f.lockedAt now = true <;> simp [h1, h2, h3, this, ih]
    · simp [h1, ih]

/-- Probed paths of a whole scan: union of the non-archive directories'
probed paths. -/
theorem mem_scanWalk_probed {arch : Str} {now : Nat} :
    ∀ (walk : List (Str × List StabFile)) (x : Str),
      x ∈ (scanWalk arch now walk).1 ↔
      ∃ e ∈ walk, pstarts arch e.1 = false ∧ x ∈ (scanDir now e.1 e.2).1 := by
  intro walk
  induction walk with
  | nil => intro x; simp [scanWalk]
  | cons e rest ih =>
    intro x
    match e with
    | (d, fs) =>
      simp only [scanWalk]
      split
      case isTrue hd =>
        rw [ih]
        constructor
        · intro ⟨e', he', hx⟩
          exact ⟨e', List.mem_cons_of_mem _ he', hx⟩
        · intro ⟨e', he', hne, hx⟩
          rcases List.mem_cons.mp he' with h1 | h1
          · subst h1; rw [hd] at hne; simp at hne
          · exact ⟨e', h1, hne, hx⟩
      case isFalse hd =>
        simp only [List.mem_append]
        constructor
        · intro h
          rcases h with h | h
          · exact ⟨(d, fs), List.mem_cons_self _ _,
              Bool.not_eq_true _ ▸ Bool.of_not_eq_true hd, h⟩
          · obtain ⟨e', he', hx⟩ := ih x |>.mp h
            exact ⟨e', List.mem_cons_of_mem _ he', hx⟩
        · intro ⟨e', he', hne, hx⟩
          rcases List.mem_cons.mp he' with h1 | h1
          · subst h1; exact Or.inl hx
          · exact Or.inr (ih x |>.mpr ⟨e', h1, hne, hx⟩)

/-- If every scan during the timeout window finds a locked recent file, the
stability wait fails. -/
theorem waitAux_false {arch : Str} {walk : List (Str × List StabFile)} :
    ∀ (timeout start : Nat),
      (∀ t, t < timeout → (scanWalk arch (start + t) walk).2 ≠ []) →
      waitAux arch walk start timeout = false := by
  intro timeout
  induction timeout with
  | zero => intro start _; rfl
  | succ r ih =>
    intro start h
    have h0 : (scanWalk arch start walk).2 ≠ [] := by
      have := h 0 (Nat.succ_pos r)
      simpa using this
    simp only [waitAux, if_neg h0]
    apply ih
    intro t ht
    have := h (t + 1) (by omega)
    have harith : start + (t + 1) = start + 1 + t := by omega
    rwa [harith] at this

/-! Concrete fixtures used by counterexamples and witnesses. -/

/-- Raw camera timestamp in the colon format, with trailing fraction and
offset as emitted by the camera. -/
def rawColon : Str := "2026:01:21 09:44:47.158+02:00".data

/-- Raw timestamp in the hyphen format. -/
def rawHyphen : Str := "2026-01-21 09:44:47".data

/-- The instant denoted by both raw fixtures. -/
def dt0 : DT := ⟨2026, 1, 21, 9, 44, 47⟩

/-- The stored timestamp string of `dt0`. -/
def stored0 : Str := "2026-01-21 09:44:47".data

def assetPump : Str := "PUMP1".data

/-- The signature shared by the fixture readings. -/
def sig0 : Sig := (some assetPump, stored0, 42)

/-- The row built from the fixture readings. -/
def rowPump : Row := ⟨assetPump, stored0, 42⟩

def fileColon : SrcFile :=
  ⟨"/watch/a.jpg".data, some ⟨some "PUMP1".data, some rawColon, some (.num 42)⟩, true⟩

def fileHyphen : SrcFile :=
  ⟨"/watch/b.jpg".data, some ⟨some "PUMP1".data, some rawHyphen, some (.num 42)⟩, true⟩

def fileBadSerial : SrcFile :=
  ⟨"/watch/c.jpg".data,
   some ⟨some "PUMP1".data, some "2026:01:21 09:44:47".data, some (.str "E53X".data)⟩,
   true⟩

def fileNoSerial : SrcFile :=
  ⟨"/watch/f.jpg".data, some ⟨some "PUMP1".data, some "2026:01:21 09:44:47".data, none⟩,
   true⟩

def fileNoMeta : SrcFile := ⟨"/watch/d.jpg".data, none, true⟩

def fileNoAsset : SrcFile :=
  ⟨"/watch/e.jpg".data, some ⟨some " - ".data, some rawColon, some (.num 42)⟩, true⟩

/-- A pre-existing store row with the fixture signature. -/
def dbRow0 : DbRow := ⟨assetPump, dt0, 42⟩

/-- A bulk-write oracle that always succeeds. -/
def wTrue : List Row → Bool := fun _ => true

/-- C4: the row builder's timestamp parsing takes the first 19 characters
of the raw value, strictly tries the colon format then the hyphen format,
discards the row (returns no value) when both fail, and maps both
`2026:01:21 09:44:47.158+02:00` and `2026-01-21 09:44:47` to the identical
stored string `2026-01-21 09:44:47`. -/
theorem C4_theorem :
    ((parse_timestamp rawColon).map strftime = some stored0) ∧
    ((parse_timestamp rawHyphen).map strftime = some stored0) ∧
    (∀ raw : Str, parse_timestamp raw = parse_timestamp (take19 raw)) ∧
    (∀ (raw : Str) (dt : DT), parseColon (take19 raw) = some dt →
      parse_timestamp raw = some dt) ∧
    (∀ raw : Str, parseColon (take19 raw) = none → parseHyphen (take19 raw) = none →
      parse_timestamp raw = none) ∧
    (∀ f : SrcFile, parse_timestamp ((mget f.meta).dto.getD []) = none →
      process_image f = none) := by
  refine ⟨by decide, by decide, ?_, ?_, ?_, ?_⟩
  · intro raw
    simp [parse_timestamp, take19, List.take_take]
  · intro raw dt h
    simp [parse_timestamp, h]
  · intro raw h1 h2
    simp [parse_timestamp, h1, h2]
  · intro f hts
    cases hca : clean_asset_code (mget f.meta).desc with
    | none => simp [process_image, hca]
    | some a =>
      cases hsi : pyToInt ((mget f.meta).serial.getD (.num 0)) with
      | none => simp [process_image, hca, hsi]
      | some si => simp [process_image, hca, hsi, hts]

/-- Witness for C4 at concrete inputs. -/
theorem C4_witness :
    parse_timestamp rawColon = parse_timestamp (take19 rawColon) ∧
    parse_timestamp rawColon = some dt0 ∧
    parse_timestamp ("garbage".data) = none ∧
    process_image fileNoMeta = none :=
  ⟨C4_theorem.2.2.1 rawColon,
   C4_theorem.2.2.2.1 rawColon dt0 (by decide),
   C4_theorem.2.2.2.2.1 ("garbage".data) (by decide) (by decide),
   C4_theorem.2.2.2.2.2 fileNoMeta (by decide)⟩

/-- C5 counterexample: the raw value `2026-01-21 09:44:47` is accepted by
the row builder (stored as `2026-01-21 09:44:47`), yet the duplicate
filter's normalization turns it into `2026-01-21 09-44-47` — the two
timestamp derivations disagree on this accepted input. -/
theorem C5_counterexample :
    (parse_timestamp rawHyphen).map strftime = some stored0 ∧
    sigTs rawHyphen = "2026-01-21 09-44-47".data ∧
    sigTs rawHyphen ≠ stored0 := by decide

/-- C5 (amended): the filter's normalization and the row builder's stored
timestamp agree exactly on the raw values whose 19-character prefix parses
in the colon format; on values parsing in the hyphen format the
normalization corrupts the time separators and the two always disagree. -/
theorem C5_theorem :
    (∀ (raw : Str) (dt : DT), parseColon (take19 raw) = some dt →
      sigTs raw = strftime dt) ∧
    (∀ (raw : Str) (dt : DT), parseHyphen (take19 raw) = some dt →
      sigTs raw ≠ strftime dt) := by
  constructor
  · intro raw dt h
    exact sigTs_eq_strftime h
  · intro raw dt h
    have hne := parseHyphen_repl_ne h
    unfold sigTs take19
    rw [take_repl]
    exact hne

/-- Witness for C5 at concrete inputs. -/
theorem C5_witness :
    sigTs rawColon = strftime dt0 ∧ sigTs rawHyphen ≠ strftime dt0 :=
  ⟨C5_theorem.1 rawColon dt0 (by decide), C5_theorem.2 rawHyphen dt0 (by decide)⟩

/-- C3: the claim (and the spec) expect a failed store query to abort the
run with nothing moved or uploaded, and `run_pipeline`'s own
`except ... return` branch shows the same intent; but
`get_existing_signatures` swallows every query exception and returns the
empty set, so the abort branch is dead code and the run proceeds to
upload and archive.  Evaluated at the failing input: a run over one new
readable image while the store query errors. -/
theorem C3_theorem :
    get_existing_signatures (.error ()) = [] ∧
    (run_pipeline [fileColon] (.error ()) wTrue).ran = true ∧
    (run_pipeline [fileColon] (.error ()) wTrue).uploaded = [rowPump] ∧
    (run_pipeline [fileColon] (.error ()) wTrue).chunkArchived = [fileColon.path] := by
  decide

/-- C6 counterexample: a file with a valid asset note, a valid timestamp
and a successful decode, but a serial that does not parse as an integer —
the row builder drops the record instead of defaulting the serial to 0. -/
theorem C6_counterexample :
    clean_asset_code (mget fileBadSerial.meta).desc = some assetPump ∧
    parse_timestamp ((mget fileBadSerial.meta).dto.getD []) = some dt0 ∧
    fileBadSerial.decodeOk = true ∧
    process_image fileBadSerial = none := by decide

/-- C6 (amended): an absent serial defaults to 0 and the row is still
built (and uploaded when the chunk writes succeed); a serial present but
unparsable as an integer makes `process_image` drop the record (the file is
archived without upload); only the duplicate filter defaults an unparsable
serial to 0. -/
theorem C6_theorem :
    (∀ (f : SrcFile) (a : Str) (dt : DT), (mget f.meta).serial = none →
      clean_asset_code (mget f.meta).desc = some a →
      parse_timestamp ((mget f.meta).dto.getD []) = some dt →
      f.decodeOk = true →
      process_image f = some ⟨a, strftime dt, 0⟩) ∧
    (∀ (f : SrcFile) (v : MVal), (mget f.meta).serial = some v →
      pyToInt v = none → process_image f = none) ∧
    (∀ v : MVal, pyToInt v = none → serialD (some v) = 0) ∧
    (∀ (tp : List SrcFile) (f : SrcFile) (r : Row), f ∈ tp →
      process_image f = some r → r ∈ (runChunks wTrue (chunksOf 50 tp)).2) := by
  refine ⟨?_, ?_, ?_, ?_⟩
  · intro f a dt hser ha hts hdec
    simp [process_image, ha, hser, hts, hdec, pyToInt]
  · intro f v hv hnone
    cases hca : clean_asset_code (mget f.meta).desc with
    | none => simp [process_image, hca]
    | some a => simp [process_image, hca, hv, hnone]
  · intro v hv
    simp [serialD, hv]
  · intro tp f r hf hr
    obtain ⟨c, hc, hfc⟩ := mem_chunksOf tp f hf
    apply runChunks_up_of_mem _ c r hc
    have hrow : r ∈ (buildRows c).1 := by
      rw [buildRows_rows]
      exact List.mem_filterMap.mpr ⟨f, hfc, hr⟩
    have hne : (buildRows c).1 ≠ [] := by
      intro h0
      rw [h0] at hrow
      simp at hrow
    unfold processChunk
    rw [if_neg hne]
    simpa [wTrue] using hrow

/-- Witness for C6 at concrete inputs. -/
theorem C6_witness :
    process_image fileNoSerial = some ⟨assetPump, strftime dt0, 0⟩ ∧
    process_image fileBadSerial = none ∧
    serialD (some (.str "E53X".data)) = 0 ∧
    rowPump ∈ (runChunks wTrue (chunksOf 50 [fileColon])).2 :=
  ⟨C6_theorem.1 fileNoSerial assetPump dt0 (by decide) (by decide) (by decide) (by decide),
   C6_theorem.2.1 fileBadSerial (.str "E53X".data) (by decide) (by decide),
   C6_theorem.2.2.1 (.str "E53X".data) (by decide),
   C6_theorem.2.2.2 [fileColon] fileColon rowPump (by decide) (by decide)⟩

/-- C1 counterexample: in a single run over two files capturing the same
instant — one raw timestamp colon-delimited, one hyphen-delimited — both
readings are forwarded to the uploader and both uploaded rows carry the
same signature (asset `PUMP1`, `2026-01-21 09:44:47`, serial 42); and a
reading whose signature is already seeded from the Data Store is uploaded
anyway, because the filter's normalization of the hyphen-delimited raw
(`2026-01-21 09-44-47`) never matches the store's `strftime` format. -/
theorem C1_counterexample :
    (run_pipeline [fileColon, fileHyphen] (.ok []) wTrue).uploaded.map rowSig =
      [sig0, sig0] ∧
    (run_pipeline [fileHyphen] (.ok [dbRow0]) wTrue).uploaded.map rowSig = [sig0] ∧
    sig0 ∈ get_existing_signatures (.ok [dbRow0]) := by decide

/-- C1 (amended): in a run where every raw timestamp that parses at all
parses in the strict colon format (the camera's native format, on which the
filter's normalization and the stored timestamp agree), at most one reading
per signature is forwarded to the uploader — the uploaded rows carry
pairwise distinct signatures — and no uploaded row's signature is an
element of the working signature set as seeded from the Data Store. -/
theorem C1_theorem (files : List SrcFile) (qres : Except Unit (List DbRow))
    (w : List Row → Bool)
    (hcol : ∀ f ∈ files, ∀ dt : DT,
      parse_timestamp ((mget f.meta).dto.getD []) = some dt →
      parseColon (take19 ((mget f.meta).dto.getD [])) = some dt) :
    (run_pipeline files qres w).uploaded.Pairwise
      (fun r1 r2 => rowSig r1 ≠ rowSig r2) ∧
    ∀ r ∈ (run_pipeline files qres w).uploaded,
      rowSig r ∉ get_existing_signatures qres := by
  by_cases h1 : files.filterMap (fun f => f.meta) = []
  · simp [run_pipeline, h1]
  by_cases h2 : (files.filterMap (fun f => f.meta)).filterMap (fun m => m.dto) = []
  · simp [run_pipeline, h1, h2]
  by_cases h3 : (classify files (get_existing_signatures qres)).1 = []
  · simp [run_pipeline, h1, h2, h3]
  simp only [run_pipeline, if_neg h1, if_neg h2, if_neg h3]
  have hsub := runChunks_up_sublist (w := w) (n := 50)
    (classify files (get_existing_signatures qres)).1
  constructor
  · apply List.Pairwise.sublist hsub
    apply pairwise_filterMap
    apply List.Pairwise.imp_of_mem ?_
      (classify_inv files (get_existing_signatures qres)).2
    intro f g hf hg hR x y hx hy
    have hff : f ∈ files :=
      (classify_tp_sublist files (get_existing_signatures qres)).subset hf
    have hgf : g ∈ files :=
      (classify_tp_sublist files (get_existing_signatures qres)).subset hg
    obtain ⟨hsx, hokf⟩ := process_image_sig hx (hcol f hff)
    obtain ⟨hsy, hokg⟩ := process_image_sig hy (hcol g hgf)
    rw [hsx, hsy]
    exact hR hokf hokg
  · intro r hr hmem
    have hr2 : r ∈ (classify files (get_existing_signatures qres)).1.filterMap
        process_image := hsub.subset hr
    obtain ⟨f, hf, hpf⟩ := List.mem_filterMap.mp hr2
    have hff : f ∈ files :=
      (classify_tp_sublist files (get_existing_signatures qres)).subset hf
    obtain ⟨hsig, hok⟩ := process_image_sig hpf (hcol f hff)
    exact (classify_inv files (get_existing_signatures qres)).1 f hf hok (hsig ▸ hmem)

/-- Witness for C1 at a concrete colon-format run. -/
theorem C1_witness :
    (run_pipeline [fileColon] (.ok []) wTrue).uploaded.Pairwise
      (fun r1 r2 => rowSig r1 ≠ rowSig r2) ∧
    ∀ r ∈ (run_pipeline [fileColon] (.ok []) wTrue).uploaded,
      rowSig r ∉ get_existing_signatures (.ok []) :=
  C1_theorem [fileColon] (.ok []) wTrue (by
    intro f hf dt hdt
    rcases List.mem_singleton.mp hf with rfl
    have he : parse_timestamp ((mget fileColon.meta).dto.getD []) = some dt0 := by
      decide
    rw [he] at hdt
    injection hdt with hdt
    subst hdt
    decide)

/-- C2: within the chunked uploader, a to-process file whose row was built
is archived exactly when its own chunk's bulk store write succeeded (a
failed chunk write leaves its built files un-archived), and the pass
processes each chunk independently of the preceding chunks' outcomes. -/
theorem C2_theorem (w : List Row → Bool) (tp : List SrcFile)
    (hnd : (tp.map (fun g => g.path)).Nodup) (c : List SrcFile)
    (hc : c ∈ chunksOf 50 tp) (f : SrcFile) (hf : f ∈ c) (r : Row)
    (hr : process_image f = some r) :
    (f.path ∈ (runChunks w (chunksOf 50 tp)).1 ↔ w (buildRows c).1 = true) ∧
    (∀ (c0 : List SrcFile) (cs0 : List (List SrcFile)),
      runChunks w (c0 :: cs0) =
        ((processChunk w c0).1 ++ (runChunks w cs0).1,
         (processChunk w c0).2 ++ (runChunks w cs0).2)) := by
  have hndc : (c.map (fun g => g.path)).Nodup :=
    ((chunksOf_sublist tp c hc).map (fun g => g.path)).nodup hnd
  exact ⟨(runChunks_arch_mem_iff tp c f hnd hc hf).trans
      (processChunk_arch_iff hf hr hndc),
    fun c0 cs0 => runChunks_cons w c0 cs0⟩

/-- Witness for C2 at a concrete two-file chunk. -/
theorem C2_witness :
    ((fileColon.path ∈ (runChunks wTrue (chunksOf 50 [fileColon, fileNoMeta])).1 ↔
      wTrue (buildRows [fileColon, fileNoMeta]).1 = true) ∧
    (∀ (c0 : List SrcFile) (cs0 : List (List SrcFile)),
      runChunks wTrue (c0 :: cs0) =
        ((processChunk wTrue c0).1 ++ (runChunks wTrue cs0).1,
         (processChunk wTrue c0).2 ++ (runChunks wTrue cs0).2))) :=
  C2_theorem wTrue [fileColon, fileNoMeta] (by decide) [fileColon, fileNoMeta]
    (by decide) fileColon (by decide) rowPump (by decide)

/-- C7: a file whose free-text note normalizes to empty (no asset) never
yields a row — `process_image` returns `None` — is always routed to the
to-process list, is archived there without upload, and the run's uploaded
rows all come from built rows of to-process files, so none comes from this
file.  (The run is assumed to reach the filter stage: some record with a
timestamp exists, otherwise the source returns before touching any
file.) -/
theorem C7_theorem (files : List SrcFile) (qres : Except Unit (List DbRow))
    (w : List Row → Bool) (f : SrcFile) (hf : f ∈ files)
    (hasset : clean_asset_code (mget f.meta).desc = none)
    (h1 : files.filterMap (fun g => g.meta) ≠ [])
    (h2 : (files.filterMap (fun g => g.meta)).filterMap (fun m => m.dto) ≠ []) :
    process_image f = none ∧
    f ∈ (run_pipeline files qres w).toProcess ∧
    f.path ∈ (run_pipeline files qres w).chunkArchived ∧
    (run_pipeline files qres w).uploaded.Sublist
      ((run_pipeline files qres w).toProcess.filterMap process_image) := by
  have hnok : ¬ okSig f := by
    intro hok
    exact hok.1 (by simpa [filterSig] using hasset)
  have htp : f ∈ (classify files (get_existing_signatures qres)).1 :=
    classify_mem_tp_of_not_ok files (get_existing_signatures qres) hf hnok
  have h3 : (classify files (get_existing_signatures qres)).1 ≠ [] := by
    intro h0
    rw [h0] at htp
    simp at htp
  have hpi : process_image f = none := by
    simp [process_image, hasset]
  simp only [run_pipeline, if_neg h1, if_neg h2, if_neg h3]
  refine ⟨hpi, htp, ?_, runChunks_up_sublist _⟩
  obtain ⟨c, hc, hfc⟩ :=
    mem_chunksOf (classify files (get_existing_signatures qres)).1 f htp
  exact runChunks_arch_of_mem _ c f.path hc (processChunk_arch_of_none hfc hpi)

/-- Witness for C7 at a concrete run. -/
theorem C7_witness :
    process_image fileNoAsset = none ∧
    fileNoAsset ∈ (run_pipeline [fileNoAsset] (.ok []) wTrue).toProcess ∧
    fileNoAsset.path ∈ (run_pipeline [fileNoAsset] (.ok []) wTrue).chunkArchived ∧
    (run_pipeline [fileNoAsset] (.ok []) wTrue).uploaded.Sublist
      ((run_pipeline [fileNoAsset] (.ok []) wTrue).toProcess.filterMap
        process_image) :=
  C7_theorem [fileNoAsset] (.ok []) wTrue fileNoAsset (by decide) (by decide)
    (by decide) (by decide)

/-- C10: a `.jpg` of the watched tree with no metadata record at all is
always classified to-process (never archived as a duplicate), every
signature added to the working set comes from a file with an asset —
this file has none, so it contributes nothing — and the file yields no row
and is archived by the chunk pass, not left pending.  (Assumes the run
reaches the filter stage, as in C7.) -/
theorem C10_theorem (files : List SrcFile) (qres : Except Unit (List DbRow))
    (w : List Row → Bool) (f : SrcFile) (hf : f ∈ files) (hnm : f.meta = none)
    (h1 : files.filterMap (fun g => g.meta) ≠ [])
    (h2 : (files.filterMap (fun g => g.meta)).filterMap (fun m => m.dto) ≠ []) :
    process_image f = none ∧
    (filterSig f).1 = none ∧
    f ∈ (run_pipeline files qres w).toProcess ∧
    (∀ s ∈ (run_pipeline files qres w).finalSet,
      s ∈ get_existing_signatures qres ∨
      ∃ g ∈ files, okSig g ∧ s = filterSig g) ∧
    f.path ∈ (run_pipeline files qres w).chunkArchived := by
  have hasset : clean_asset_code (mget f.meta).desc = none := by
    rw [hnm]
    rfl
  have hnok : ¬ okSig f := by
    intro hok
    exact hok.1 (by simpa [filterSig] using hasset)
  have htp : f ∈ (classify files (get_existing_signatures qres)).1 :=
    classify_mem_tp_of_not_ok files (get_existing_signatures qres) hf hnok
  have h3 : (classify files (get_existing_signatures qres)).1 ≠ [] := by
    intro h0
    rw [h0] at htp
    simp at htp
  have hpi : process_image f = none := by
    simp [process_image, hasset]
  simp only [run_pipeline, if_neg h1, if_neg h2, if_neg h3]
  refine ⟨hpi, by simp [filterSig, hasset], htp, ?_, ?_⟩
  · intro s hs
    exact classify_finalSet_charact files (get_existing_signatures qres) s hs
  · obtain ⟨c, hc, hfc⟩ :=
      mem_chunksOf (classify files (get_existing_signatures qres)).1 f htp
    exact runChunks_arch_of_mem _ c f.path hc (processChunk_arch_of_none hfc hpi)

/-- Witness for C10 at a concrete run. -/
theorem C10_witness :
    process_image fileNoMeta = none ∧
    (filterSig fileNoMeta).1 = none ∧
    fileNoMeta ∈ (run_pipeline [fileColon, fileNoMeta] (.ok []) wTrue).toProcess ∧
    (∀ s ∈ (run_pipeline [fileColon, fileNoMeta] (.ok []) wTrue).finalSet,
      s ∈ get_existing_signatures (.ok []) ∨
      ∃ g ∈ [fileColon, fileNoMeta], okSig g ∧ s = filterSig g) ∧
    fileNoMeta.path ∈
      (run_pipeline [fileColon, fileNoMeta] (.ok []) wTrue).chunkArchived :=
  C10_theorem [fileColon, fileNoMeta] (.ok []) wTrue fileNoMeta (by decide)
    (by decide) (by decide) (by decide)

/-- C8: one polling scan lock-probes exactly the `.jpg` files outside the
archive subtree modified within the last 60 seconds (older files are never
lock-checked), the polling loop returns failure when every one-second poll
within the timeout still finds a locked recent file, and a failed stability
wait skips the run entirely: nothing processed, archived or uploaded.  Time
is discretized to whole seconds (`time.sleep(1)` between polls). -/
theorem C8_theorem (arch : Str) (walk : List (Str × List StabFile))
    (start timeout : Nat) (files : List SrcFile)
    (qres : Except Unit (List DbRow)) (w : List Row → Bool) :
    (∀ (now : Nat) (d : Str) (fs : List StabFile),
      (scanDir now d fs).1 =
        (fs.filter (fun g => isJpgName g.name && decide (now - g.mtime ≤ 60))).map
          (fun g => pjoin d g.name)) ∧
    (∀ (now : Nat) (x : Str),
      x ∈ (scanWalk arch now walk).1 ↔
      ∃ e ∈ walk, pstarts arch e.1 = false ∧ x ∈ (scanDir now e.1 e.2).1) ∧
    ((∀ t, t < timeout → (scanWalk arch (start + t) walk).2 ≠ []) →
      wait_for_folder_stability arch walk start timeout = false) ∧
    (wait_for_folder_stability arch walk start timeout = false →
      mainIteration arch walk start timeout files qres w =
        ⟨false, [], [], [], [], []⟩) := by
  refine ⟨?_, ?_, ?_, ?_⟩
  · intro now d fs
    exact scanDir_probed now d fs
  · intro now x
    exact mem_scanWalk_probed walk x
  · intro h
    exact waitAux_false timeout start h
  · intro h
    simp [mainIteration, h]

def lockedJpg : StabFile := ⟨"x.jpg".data, 1000, fun _ => true⟩

def walkLocked : List (Str × List StabFile) := [("/watch".data, [lockedJpg])]

def archPath : Str := "/watch/archive".data

/-- Witness for C8: a persistently locked recent file makes the stability
wait fail and the triggered run skip. -/
theorem C8_witness :
    wait_for_folder_stability archPath walkLocked 1000 15 = false ∧
    mainIteration archPath walkLocked 1000 15 [fileColon] (.ok []) wTrue =
      ⟨false, [], [], [], [], []⟩ := by
  have h := C8_theorem archPath walkLocked 1000 15 [fileColon] (.ok []) wTrue
  have hb := h.2.2.1 (by decide)
  exact ⟨hb, h.2.2.2 hb⟩

def recArch : MetaRec := ⟨"/watch/archive/old.jpg".data, ⟨none, none, none⟩⟩

/-- C9: any metadata record whose source path starts with the archive path
is dropped by the metadata adapter (and every path under the archive folder
does start with it), and every path enumerated by the watched-tree scan
originates from a directory not under the archive — archived files appear
in neither input of a run. -/
theorem C9_theorem (arch : Str) :
    (∀ (res : Except Unit (List MetaRec)) (m : MetaRec),
      pstarts arch m.src = true → m ∉ get_metadata arch res) ∧
    (∀ rest : Str, pstarts arch (arch ++ '/' :: rest) = true) ∧
    (∀ (walk : List (Str × List Str)) (p : Str), p ∈ iter_all_jpgs arch walk →
      ∃ e ∈ walk, ∃ f ∈ e.2, pstarts arch e.1 = false ∧ isJpgName f = true ∧
        p = pjoin e.1 f) := by
  refine ⟨?_, ?_, ?_⟩
  · intro res m hm hmem
    unfold get_metadata at hmem
    match res with
    | .error _ => simp at hmem
    | .ok l =>
      have := (List.mem_filter.mp hmem).2
      rw [hm] at this
      simp at this
  · intro rest
    exact pstarts_append arch ('/' :: rest)
  · intro walk p hp
    exact mem_iter_all_jpgs walk p hp

/-- Witness for C9 at concrete paths. -/
theorem C9_witness :
    recArch ∉ get_metadata archPath (.ok [recArch]) ∧
    pstarts archPath (archPath ++ '/' :: "old.jpg".data) = true ∧
    (∃ e ∈ [("/watch".data, ["a.jpg".data])], ∃ f ∈ e.2,
      pstarts archPath e.1 = false ∧ isJpgName f = true ∧
      pjoin ("/watch".data) ("a.jpg".data) = pjoin e.1 f) :=
  ⟨(C9_theorem archPath).1 (.ok [recArch]) recArch (by decide),
   (C9_theorem archPath).2.1 ("old.jpg".data),
   (C9_theorem archPath).2.2 [("/watch".data, ["a.jpg".data])]
     (pjoin ("/watch".data) ("a.jpg".data)) (by decide)⟩
